import Mathlib

/-!
Verification development for the runtime core of `src/src/bytecode.rs`
(a register-based bytecode VM runtime for an AWK-like language).

The embedding is shallow and pure:

* Byte sequences are `List Nat` (one `Nat` per byte; the newline byte is `10`).
* The Rust `Str<'a>(RefCell<Inner<'a>>)` is a cell whose only mutation is the
  one-shot `Concat → Boxed` flattening done by `force`.  We model a string
  value as the current contents of that cell (the `Inner` enum), and every
  operation that may mutate a cell returns the cell's new contents
  explicitly alongside its result.  The `Branch { len, left, right }` node
  behind the `Concat` variant is inlined into the `Concat` constructor as
  `(len, left, right)`.
* `Rc<str>` sharing and the `'a` lifetime of `Literal` borrows are identity
  facts with no observable effect on the values computed here, so both
  `Literal` and `Boxed` simply carry their bytes.
* The `Registry<T>` hashbrown map keyed by `Rc<str>` is modelled as an
  association list keyed by the materialised bytes (lookup takes the first
  matching entry, update rewrites it in place, insertion appends).
* Fallible Rust code (`Result<R>`) becomes `Except E R`; a Rust closure
  `FnOnce(&mut T) -> Result<R>` becomes `T → Except E R × T`.
-/

namespace Frawk

/-- The three variants of `Inner<'a>` from the source: a borrowed literal,
an owned (reference-counted) buffer, and a lazy concatenation node carrying
the cached (saturated) `u32` length of `Branch`. -/
inductive Inner where
  | Literal : List Nat → Inner
  | Boxed : List Nat → Inner
  | Concat : Nat → Inner → Inner → Inner
deriving Repr, DecidableEq

/-- A string value is the current contents of its `RefCell`. -/
abbrev Str := Inner

/-- Maximal `u32` value, `2^32 - 1`. -/
def U32MAX : Nat := 4294967295

/-- The source's `conv_len`: clamp a `usize` length into `u32`. -/
def conv_len (l : Nat) : Nat :=
  if l > U32MAX then U32MAX else l

/-- Rust `u32::saturating_add` on lengths already clamped to `u32`. -/
def satAdd (x y : Nat) : Nat := min (x + y) U32MAX

/-- The source's `Str::len_u32`: literal and boxed lengths are clamped,
a concat node reports its cached length. -/
def Str.len_u32 : Str → Nat
  | .Literal s => conv_len s.length
  | .Boxed s => conv_len s.length
  | .Concat len _ _ => len

/-- The source's `Str::len` (a `usize`): literal and boxed lengths are
exact, a concat node reports its cached (possibly saturated) length. -/
def Str.len : Str → Nat
  | .Literal s => s.length
  | .Boxed s => s.length
  | .Concat len _ _ => len

/-- The source's `Str::concat`: build a `Concat` node whose cached length
is the saturating sum of the children's `u32` lengths. -/
def Str.concat (s1 s2 : Str) : Str :=
  .Concat (satAdd s1.len_u32 s2.len_u32) s1 s2

/-- The materialised byte sequence of a string value (leaves of the concat
tree, left to right).  `force` is proved to compute exactly this. -/
def flatten : Str → List Nat
  | .Literal s => s
  | .Boxed s => s
  | .Concat _ l r => flatten l ++ flatten r

/-- Number of nodes of a concat tree; termination measure for `forceRun`. -/
def treeSize : Str → Nat
  | .Literal _ => 1
  | .Boxed _ => 1
  | .Concat _ l r => 1 + treeSize l + treeSize r

/-- Total node count of a work stack. -/
def stackSize : List Str → Nat
  | [] => 0
  | c :: rest => treeSize c + stackSize rest

/-- The loop inside `Str::force`: an explicit-stack depth-first left
traversal.  `cur` is the node in hand, `res` the buffer built so far,
`todos` the stack of right children still to visit.  At a `Concat` node we
push the right child and descend left; at a leaf we append its bytes and
pop the next piece of work (returning `res` when the stack drains). -/
def forceRun (cur : Str) (res : List Nat) (todos : List Str) : List Nat :=
  match cur with
  | .Concat _ l r => forceRun l res (r :: todos)
  | .Literal s =>
    match todos with
    | [] => res ++ s
    | c :: rest => forceRun c (res ++ s) rest
  | .Boxed s =>
    match todos with
    | [] => res ++ s
    | c :: rest => forceRun c (res ++ s) rest
termination_by treeSize cur + stackSize todos
decreasing_by
  all_goals simp [treeSize, stackSize]
  all_goals omega

/-- The source's `Str::force`: a `Literal` or `Boxed` cell is left alone;
a `Concat` cell is replaced by `Boxed` holding the flattened bytes computed
by the traversal loop. -/
def force (s : Str) : Str :=
  match s with
  | .Literal _ => s
  | .Boxed _ => s
  | .Concat _ _ _ => .Boxed (forceRun s [] [])

/-- Rank used to show `Str::eq` terminates: forcing kills every `Concat`. -/
def rank : Str → Nat
  | .Concat _ _ _ => 1
  | _ => 0

theorem rank_force (s : Str) : rank (force s) = 0 := by
  cases s <;> rfl

/-- The source's `PartialEq::eq` on `Str`.  Mutation is explicit: the
result carries the two cells' new contents.  Fast paths: a length mismatch
is unequal (no forcing), leaf/leaf pairs compare bytes directly; otherwise
both sides are forced and the comparison retries (the retried call never
mutates further, as both arguments are then leaves). -/
def Str.eq (a b : Str) : Bool × Str × Str :=
  if a.len = b.len then
    match a, b with
    | .Literal s1, .Literal s2 => (s1 == s2, .Literal s1, .Literal s2)
    | .Boxed s1, .Boxed s2 => (s1 == s2, .Boxed s1, .Boxed s2)
    | .Literal r, .Boxed bx => (r == bx, .Literal r, .Boxed bx)
    | .Boxed bx, .Literal r => (r == bx, .Boxed bx, .Literal r)
    | .Literal s1, .Concat n2 l2 r2 =>
      ((Str.eq (force (.Literal s1)) (force (.Concat n2 l2 r2))).1,
        force (.Literal s1), force (.Concat n2 l2 r2))
    | .Boxed s1, .Concat n2 l2 r2 =>
      ((Str.eq (force (.Boxed s1)) (force (.Concat n2 l2 r2))).1,
        force (.Boxed s1), force (.Concat n2 l2 r2))
    | .Concat n1 l1 r1, .Literal s2 =>
      ((Str.eq (force (.Concat n1 l1 r1)) (force (.Literal s2))).1,
        force (.Concat n1 l1 r1), force (.Literal s2))
    | .Concat n1 l1 r1, .Boxed s2 =>
      ((Str.eq (force (.Concat n1 l1 r1)) (force (.Boxed s2))).1,
        force (.Concat n1 l1 r1), force (.Boxed s2))
    | .Concat n1 l1 r1, .Concat n2 l2 r2 =>
      ((Str.eq (force (.Concat n1 l1 r1)) (force (.Concat n2 l2 r2))).1,
        force (.Concat n1 l1 r1), force (.Concat n2 l2 r2))
  else (false, a, b)
termination_by rank a + rank b
decreasing_by
  all_goals simp [force, rank]

/-- The source's `Str::clone_str`: force, then hand out the flattened
buffer.  The `Concat` arm is the source's `unreachable!()` (dead: `force`
never returns a `Concat`, see `force_not_concat`). -/
def Str.clone_str (s : Str) : List Nat × Str :=
  let s' := force s
  match s' with
  | .Literal l => (l, s')
  | .Boxed b => (b, s')
  | .Concat _ _ _ => ([], s')

/-- The source's `Str::with_str`: force, then apply `f` to the contiguous
bytes.  The `Concat` arm is the source's `unreachable!()` (dead code). -/
def Str.with_str {R : Type} (f : List Nat → R) (s : Str) : R × Str :=
  let s' := force s
  match s' with
  | .Literal l => (f l, s')
  | .Boxed b => (f b, s')
  | .Concat _ _ _ => (f [], s')

/-- Well-formedness of the cached lengths: every `Concat` node's length
field is the saturating sum of its children's `u32` lengths, exactly as
`Str::concat` builds it. -/
def wfB : Str → Bool
  | .Literal _ => true
  | .Boxed _ => true
  | .Concat len l r =>
    (len == satAdd (Str.len_u32 l) (Str.len_u32 r)) && wfB l && wfB r

/-- The `Registry<T>` cache `HashMap<Rc<str>, T>`, modelled as an
association list keyed by materialised bytes. -/
abbrev RegCache (T : Type) := List (List Nat × T)

/-- Hash-map lookup: the first entry with a matching key. -/
def lookupK {T : Type} : RegCache T → List Nat → Option T
  | [], _ => none
  | (k', v) :: rest, k => if k' = k then some v else lookupK rest k

/-- In-place mutation of an occupied entry (`o.get_mut()` then writes). -/
def updateK {T : Type} : RegCache T → List Nat → T → RegCache T
  | [], _, _ => []
  | (k', v') :: rest, k, v =>
    if k' = k then (k', v) :: rest else (k', v') :: updateK rest k v

/-- The source's `Registry::get_fallible`.  The key is `s.clone_str()`
(which forces `s`; the returned `Str` is the cell's new contents).  On an
occupied entry, `getter` mutates the cached value in place.  On a vacant
entry, `new` runs first; its error aborts with the cache unchanged (the
`?` operator); otherwise `getter` runs on the fresh value and the value is
inserted afterwards — even when `getter` itself failed. -/
def get_fallible {T E R : Type} (reg : RegCache T) (s : Str)
    (new : List Nat → Except E T) (getter : T → Except E R × T) :
    Except E R × RegCache T × Str :=
  let k := (Str.clone_str s).1
  let s' := (Str.clone_str s).2
  match lookupK reg k with
  | some t =>
    let (res, t') := getter t
    (res, updateK reg k t', s')
  | none =>
    match new k with
    | .error e => (.error e, reg, s')
    | .ok val =>
      let (res, val') := getter val
      (res, reg ++ [(k, val')], s')

/-- The source's `Registry::get`: delegate to `get_fallible` with the
getter's result wrapped in `Ok`. -/
def Registry.get {T E R : Type} (reg : RegCache T) (s : Str)
    (new : List Nat → Except E T) (getter : T → R × T) :
    Except E R × RegCache T × Str :=
  get_fallible reg s new (fun t => ((Except.ok (getter t).1 : Except E R), (getter t).2))

/-- Boolean success test for `Except`. -/
def isOkE {E A : Type} : Except E A → Bool
  | .ok _ => true
  | .error _ => false

/-- One registry access for the make-at-most-once analysis: a key string
together with the `new` (make) and `getter` closures passed to that call. -/
structure CallRec (T E R : Type) where
  key : Str
  make : List Nat → Except E T
  use : T → Except E R × T

/-- One `get_fallible` call, also reporting whether the make closure was
invoked.  In the source `new` runs exactly when the entry is vacant, i.e.
when the lookup of the materialised key misses. -/
def stepCall {T E R : Type} (reg : RegCache T) (c : CallRec T E R) :
    (Except E R × RegCache T) × Bool :=
  let invoked := (lookupK reg (flatten c.key)).isNone
  let r := get_fallible reg c.key c.make c.use
  ((r.1, r.2.1), invoked)

/-- Run a sequence of registry calls from a starting cache; returns the
final cache and the list of materialised keys for which the make closure
was invoked (one occurrence per invocation). -/
def runCalls {T E R : Type} (reg : RegCache T) :
    List (CallRec T E R) → RegCache T × List (List Nat)
  | [] => (reg, [])
  | c :: rest =>
    let s := stepCall reg c
    let f := runCalls s.1.2 rest
    (f.1, (if s.2 then [flatten c.key] else []) ++ f.2)

/-- A `BufReader<File>`: the file's byte contents plus the read position. -/
structure BufReaderM where
  contents : List Nat
  pos : Nat
deriving Repr, DecidableEq

/-- Bytes of the next line: everything up to and including the first
newline byte (10), or the whole remainder when no newline is left. -/
def takeLine : List Nat → List Nat
  | [] => []
  | b :: bs => if b = 10 then [10] else b :: takeLine bs

/-- Modelled from the spec: `std::io::BufRead::read_line`, used by
`FileRead::get_line` but living outside this repository.  Per §4.4 of the
spec it "reads up to and including the next newline (the newline is
appended to `out`)" and reads zero bytes at EOF.  Returns the number of
bytes read, the extended buffer, and the advanced reader. -/
def read_line (r : BufReaderM) (into : List Nat) :
    Nat × List Nat × BufReaderM :=
  let line := takeLine (r.contents.drop r.pos)
  (line.length, into ++ line, ⟨r.contents, r.pos + line.length⟩)

/-- A file system for `File::open`: path bytes to file contents, `none`
when opening fails. -/
abbrev FileSys := List Nat → Option (List Nat)

/-- The source's `FileRead::get_line`: a registry access keyed by the path
whose make closure opens the file (errors surface) and whose getter runs
`read_line`, mapping "read `n > 0` bytes" to the returned `Bool`
(`false` = EOF).  The mutated `into` buffer rides along in the result. -/
def FileRead.get_line (fs : FileSys) (reg : RegCache BufReaderM)
    (pat : Str) (into : List Nat) :
    Except Unit (Bool × List Nat) × RegCache BufReaderM × Str :=
  get_fallible reg pat
    (fun s =>
      match fs s with
      | some c => .ok ⟨c, 0⟩
      | none => .error ())
    (fun reader =>
      let r := read_line reader into
      (.ok (decide (r.1 > 0), r.2.1), r.2.2))

/-! Helper lemmas about the string layer. -/

/-- The explicit-stack traversal appends exactly the flattened bytes of the
node in hand followed by those of the stacked work items. -/
theorem forceRun_eq (cur : Str) (res : List Nat) (todos : List Str) :
    forceRun cur res todos = res ++ flatten cur ++ (todos.map flatten).flatten := by
  induction cur, res, todos using forceRun.induct <;>
    simp_all [forceRun, flatten, List.append_assoc]

theorem force_concat (n : Nat) (l r : Str) :
    force (.Concat n l r) = .Boxed (flatten (.Concat n l r)) := by
  simp [force, forceRun_eq]

theorem flatten_force (s : Str) : flatten (force s) = flatten s := by
  cases s <;> simp [force, flatten, forceRun_eq]

theorem force_force (s : Str) : force (force s) = force s := by
  cases s <;> simp [force]

theorem force_not_concat (s : Str) (n : Nat) (l r : Str) :
    force s ≠ .Concat n l r := by
  cases s <;> simp [force]

theorem clone_str_eq (s : Str) : Str.clone_str s = (flatten s, force s) := by
  cases s <;> simp [Str.clone_str, force, flatten, forceRun_eq]

theorem with_str_eq {R : Type} (f : List Nat → R) (s : Str) :
    Str.with_str f s = (f (flatten s), force s) := by
  cases s <;> simp [Str.with_str, force, flatten, forceRun_eq]

theorem eq_boxed_boxed (x y : List Nat) :
    Str.eq (.Boxed x) (.Boxed y) = (x == y, .Boxed x, .Boxed y) := by
  by_cases h : x.length = y.length
  · simp [Str.eq, Str.len, h]
  · have hne : (x == y) = false :=
      beq_eq_false_iff_ne.mpr (fun he => h (congrArg List.length he))
    simp [Str.eq, Str.len, h, hne]

theorem satAdd_assoc (a b c : Nat) :
    satAdd (satAdd a b) c = satAdd a (satAdd b c) := by
  simp only [satAdd, Nat.min_def]
  split_ifs <;> omega

/-- When no length saturates, the cached `u32` length of a well-formed
value is the true materialised length. -/
theorem wf_len_u32 (s : Str) (hw : wfB s = true)
    (hb : (flatten s).length ≤ U32MAX) :
    Str.len_u32 s = (flatten s).length := by
  induction s with
  | Literal s =>
    simp only [Str.len_u32, conv_len, flatten] at hb ⊢
    split <;> omega
  | Boxed s =>
    simp only [Str.len_u32, conv_len, flatten] at hb ⊢
    split <;> omega
  | Concat n l r ihl ihr =>
    simp only [wfB, Bool.and_eq_true, beq_iff_eq] at hw
    simp only [flatten, List.length_append] at hb ⊢
    rw [Str.len_u32, hw.1.1,
      ihl hw.1.2 (by omega), ihr hw.2 (by omega)]
    simp only [satAdd]
    omega

/-- When no length saturates, `len()` of a well-formed value is the true
materialised length. -/
theorem wf_len (s : Str) (hw : wfB s = true)
    (hb : (flatten s).length ≤ U32MAX) :
    Str.len s = (flatten s).length := by
  cases s with
  | Literal s => rfl
  | Boxed s => rfl
  | Concat n l r => exact wf_len_u32 _ hw hb

theorem len_force (s : Str) : Str.len (force s) = (flatten s).length := by
  cases s <;> simp [force, Str.len, flatten, forceRun_eq]

/-- Equality of two concat nodes with the same cached length: the length
fast path passes, both sides are forced, and the retried comparison is a
byte comparison of the materialised strings. -/
theorem eq_concat_concat (n : Nat) (l1 r1 l2 r2 : Str) :
    Str.eq (.Concat n l1 r1) (.Concat n l2 r2) =
      ((flatten l1 ++ flatten r1 == flatten l2 ++ flatten r2),
        .Boxed (flatten l1 ++ flatten r1), .Boxed (flatten l2 ++ flatten r2)) := by
  simp [Str.eq, Str.len, force_concat, eq_boxed_boxed, flatten]

/-- The post-states of `Str::eq` are each either the untouched operand or
its forced form. -/
theorem eq_post (a b : Str) :
    ((Str.eq a b).2.1 = a ∨ (Str.eq a b).2.1 = force a) ∧
    ((Str.eq a b).2.2 = b ∨ (Str.eq a b).2.2 = force b) := by
  cases a <;> cases b <;> simp only [Str.eq] <;> split <;> simp [force]

/-- C1: when both operands are `Concat` nodes whose cached length fields
saturated at `2^32 - 1`, the length fast path cannot separate them;
`eq` falls back to materialising (forcing) both sides and returns `true`
exactly when the materialised byte sequences are equal. -/
theorem eq_saturated_materialises (l1 r1 l2 r2 : Str) :
    ((Str.eq (.Concat U32MAX l1 r1) (.Concat U32MAX l2 r2)).1 = true ↔
      flatten (.Concat U32MAX l1 r1) = flatten (.Concat U32MAX l2 r2)) ∧
    (Str.eq (.Concat U32MAX l1 r1) (.Concat U32MAX l2 r2)).2.1 =
      force (.Concat U32MAX l1 r1) ∧
    (Str.eq (.Concat U32MAX l1 r1) (.Concat U32MAX l2 r2)).2.2 =
      force (.Concat U32MAX l2 r2) := by
  rw [eq_concat_concat]
  simp [force_concat, flatten]

/-- C4: operands whose `len()` values differ compare unequal through the
length fast path alone: `eq` returns `false` and both cells are returned
untouched (no `Concat → Boxed` transition happens in either operand). -/
theorem eq_len_mismatch (a b : Str) (h : Str.len a ≠ Str.len b) :
    Str.eq a b = (false, a, b) := by
  cases a <;> cases b <;> simp only [Str.eq] <;> rw [if_neg h]

/-- Witness for `eq_len_mismatch` at concrete strings of lengths 1 and 0. -/
theorem eq_len_mismatch_witness :
    Str.len (.Literal [1]) ≠ Str.len (.Literal []) ∧
    Str.eq (.Literal [1]) (.Literal []) = (false, .Literal [1], .Literal []) :=
  ⟨by decide, eq_len_mismatch _ _ (by decide)⟩

/-- C5: string concatenation is associative up to materialised bytes:
the two association orders have equal flattened byte sequences, and the
runtime's own `eq` (which forces both sides) returns `true` on them. -/
theorem concat_assoc_bytes (a b c : Str) :
    flatten (Str.concat (Str.concat a b) c) =
      flatten (Str.concat a (Str.concat b c)) ∧
    (Str.eq (Str.concat (Str.concat a b) c)
      (Str.concat a (Str.concat b c))).1 = true := by
  have hf : flatten (Str.concat (Str.concat a b) c) =
      flatten (Str.concat a (Str.concat b c)) := by
    simp [Str.concat, flatten, List.append_assoc]
  refine ⟨hf, ?_⟩
  have len_u32_concat : ∀ (n : Nat) (l r : Str),
      Str.len_u32 (.Concat n l r) = n := fun _ _ _ => rfl
  simp only [Str.concat, len_u32_concat, satAdd_assoc]
  rw [eq_concat_concat]
  simp [flatten, List.append_assoc]

/-- C6: the only variant transition a string cell ever undergoes is
`Concat → Boxed`, performed by `force`; `Literal` and `Boxed` cells are
fixed by `force` (so the transition happens at most once), and every
operation leaves each operand cell either untouched or forced: `eq`
returns each cell unchanged or forced, `clone_str` and `with_str` force
the receiver, and `concat` embeds its operands unchanged. -/
theorem variant_transitions :
    (∀ bs, force (.Literal bs) = .Literal bs) ∧
    (∀ bs, force (.Boxed bs) = .Boxed bs) ∧
    (∀ n l r, force (.Concat n l r) = .Boxed (flatten (.Concat n l r))) ∧
    (∀ s, force (force s) = force s) ∧
    (∀ a b, ((Str.eq a b).2.1 = a ∨ (Str.eq a b).2.1 = force a) ∧
      ((Str.eq a b).2.2 = b ∨ (Str.eq a b).2.2 = force b)) ∧
    (∀ s, (Str.clone_str s).2 = force s) ∧
    (∀ (R : Type) (f : List Nat → R) s, (Str.with_str f s).2 = force s) ∧
    (∀ a b, Str.concat a b =
      .Concat (satAdd (Str.len_u32 a) (Str.len_u32 b)) a b) :=
  ⟨fun _ => rfl, fun _ => rfl, force_concat, force_force, eq_post,
    fun s => by rw [clone_str_eq], fun _ f s => by rw [with_str_eq],
    fun _ _ => rfl⟩

/-- The string built by `concat` from two `2^31`-byte literals: its cached
length saturates at `2^32 - 1` while its materialised length is `2^32`. -/
def c3str : Str :=
  Str.concat (.Literal (List.replicate 2147483648 0))
    (.Literal (List.replicate 2147483648 0))

/-- C3 counterexample: forcing CAN change `len()`.  Before forcing,
`len()` of `c3str` reports the saturated cached length `2^32 - 1`; after
forcing it reports the true materialised length `2^32`. -/
theorem force_len_cex :
    Str.len c3str = 4294967295 ∧
    Str.len (force c3str) = 4294967296 ∧
    Str.len (force c3str) ≠ Str.len c3str := by
  have hlen : ∀ (n m : Nat) (a b : List Nat), a.length = n → b.length = m →
      Str.len (Str.concat (.Literal a) (.Literal b)) =
        satAdd (conv_len n) (conv_len m) := by
    intro n m a b ha hb
    simp [Str.concat, Str.len, Str.len_u32, ha, hb]
  have hfl : ∀ a b : List Nat,
      flatten (Str.concat (.Literal a) (.Literal b)) = a ++ b :=
    fun a b => rfl
  have h1 : Str.len c3str = 4294967295 := by
    rw [c3str, hlen 2147483648 2147483648 _ _
      (List.length_replicate _ _) (List.length_replicate _ _)]
    simp only [conv_len, satAdd, U32MAX, Nat.min_def]
    split_ifs <;> omega
  have h2 : Str.len (force c3str) = 4294967296 := by
    rw [len_force, c3str, hfl, List.length_append, List.length_replicate]
  exact ⟨h1, h2, by omega⟩

/-- C3 amended: forcing twice yields the same cell (hence the same bytes)
as forcing once, forcing never changes the materialised bytes, and it
preserves `len()` provided the value is well-formed and its materialised
length does not exceed `2^32 - 1` (i.e. no length saturated); the
saturated case is excluded by `force_len_cex`. -/
theorem force_idempotent_amended (s : Str) :
    force (force s) = force s ∧
    flatten (force s) = flatten s ∧
    (wfB s = true → (flatten s).length ≤ U32MAX →
      Str.len (force s) = Str.len s) := by
  refine ⟨force_force s, flatten_force s, fun hw hb => ?_⟩
  rw [len_force, wf_len s hw hb]

/-- Witness for `force_idempotent_amended` on a small well-formed value. -/
theorem force_idempotent_amended_witness :
    wfB (Str.concat (.Literal [1]) (.Literal [2, 3])) = true ∧
    (flatten (Str.concat (.Literal [1]) (.Literal [2, 3]))).length ≤ U32MAX ∧
    Str.len (force (Str.concat (.Literal [1]) (.Literal [2, 3]))) =
      Str.len (Str.concat (.Literal [1]) (.Literal [2, 3])) :=
  ⟨by decide, by decide,
    (force_idempotent_amended _).2.2 (by decide) (by decide)⟩

/-! Helper lemmas about the registry cache. -/

theorem lookupK_append_isSome {T : Type} (m m2 : RegCache T) (k : List Nat)
    (h : (lookupK m k).isSome = true) : lookupK (m ++ m2) k = lookupK m k := by
  induction m with
  | nil => simp [lookupK] at h
  | cons p rest ih =>
    by_cases hk : p.1 = k
    · cases p
      simp_all [lookupK]
    · cases p
      simp_all [lookupK]

theorem lookupK_append_self {T : Type} (m : RegCache T) (k : List Nat)
    (v : T) (h : lookupK m k = none) :
    lookupK (m ++ [(k, v)]) k = some v := by
  induction m with
  | nil => simp [lookupK]
  | cons p rest ih =>
    by_cases hk : p.1 = k
    · cases p
      simp_all [lookupK]
    · cases p
      simp_all [lookupK]

theorem lookupK_updateK_isSome {T : Type} (m : RegCache T) (k k2 : List Nat)
    (v : T) :
    (lookupK (updateK m k2 v) k).isSome = (lookupK m k).isSome := by
  induction m with
  | nil => simp [updateK]
  | cons p rest ih =>
    cases p with
    | mk k' v' =>
      by_cases h2 : k' = k2
      · simp only [updateK, if_pos h2, lookupK]
        by_cases hk : k' = k <;> simp [hk]
      · simp only [updateK, if_neg h2, lookupK]
        by_cases hk : k' = k <;> simp [hk, ih]

/-- After any registry call, a key that was cached is still cached. -/
theorem stepCall_isSome {T E R : Type} (reg : RegCache T) (c : CallRec T E R)
    (k : List Nat) (h : (lookupK reg k).isSome = true) :
    (lookupK (stepCall reg c).1.2 k).isSome = true := by
  unfold stepCall get_fallible
  simp only [clone_str_eq]
  cases hl : lookupK reg (flatten c.key) with
  | some t => simp [hl, lookupK_updateK_isSome, h]
  | none =>
    cases hn : c.make (flatten c.key) with
    | error e => simp [hl, hn, h]
    | ok v => simp [hl, hn, lookupK_append_isSome _ _ _ h, h]

/-- After a call whose make closure succeeded (or whose key was already
cached, in particular after any call that succeeded overall), the call's
key is cached. -/
theorem stepCall_present {T E R : Type} (reg : RegCache T) (c : CallRec T E R)
    (h : isOkE (c.make (flatten c.key)) = true ∨
      (lookupK reg (flatten c.key)).isSome = true ∨
      isOkE (stepCall reg c).1.1 = true) :
    (lookupK (stepCall reg c).1.2 (flatten c.key)).isSome = true := by
  unfold stepCall get_fallible at h ⊢
  simp only [clone_str_eq] at h ⊢
  cases hl : lookupK reg (flatten c.key) with
  | some t => simp [hl, lookupK_updateK_isSome]
  | none =>
    cases hn : c.make (flatten c.key) with
    | ok v => simp [hl, hn, lookupK_append_self reg _ _ hl]
    | error e => simp [hl, hn, isOkE] at h

/-- A key that is cached never has the make closure invoked for it again,
however many calls follow. -/
theorem runCalls_count_zero {T E R : Type} (reg : RegCache T)
    (calls : List (CallRec T E R)) (k : List Nat)
    (h : (lookupK reg k).isSome = true) :
    ((runCalls reg calls).2).count k = 0 := by
  induction calls generalizing reg with
  | nil => simp [runCalls]
  | cons c rest ih =>
    have hrest := ih _ (stepCall_isSome reg c k h)
    simp only [runCalls, List.count_append, hrest, Nat.add_zero]
    by_cases he : flatten c.key = k
    · have hfalse : (lookupK reg (flatten c.key)).isNone = false := by
        rw [he]
        cases hx : lookupK reg k <;> simp_all
      simp [stepCall, hfalse]
    · split <;> simp [List.count_cons, he]

/-- C2 counterexample input: a call on key `[7]` whose make closure always
fails. -/
def c2call : CallRec Unit Unit Unit where
  key := .Literal [7]
  make := fun _ => .error ()
  use := fun t => (.ok (), t)

/-- C2 counterexample: from the empty registry (its state at creation),
two calls with the same key `[7]` whose make closure errors both invoke
make — the invocation count is 2, refuting "make is invoked at most once
per distinct key over the registry's lifetime". -/
theorem make_at_most_once_cex :
    ((runCalls ([] : RegCache Unit) [c2call, c2call]).2).count [7] = 2 := by
  rfl

/-- C2 amended: once a call for key k either finds k cached or has its
make closure succeed (in particular once a call with key k succeeds
overall), no later call with key k ever invokes make again; make can only
be re-invoked for a key while all its previous invocations failed. -/
theorem make_not_reinvoked_after_success {T E R : Type} (reg : RegCache T)
    (c : CallRec T E R) (post : List (CallRec T E R))
    (h : isOkE (c.make (flatten c.key)) = true ∨
      (lookupK reg (flatten c.key)).isSome = true ∨
      isOkE (stepCall reg c).1.1 = true) :
    ((runCalls (stepCall reg c).1.2 post).2).count (flatten c.key) = 0 :=
  runCalls_count_zero _ _ _ (stepCall_present reg c h)

/-- Witness input for `make_not_reinvoked_after_success`: a call on key
`[7]` whose make closure succeeds. -/
def c2ok : CallRec Unit Unit Unit where
  key := .Literal [7]
  make := fun _ => .ok ()
  use := fun t => (.ok (), t)

/-- Witness for `make_not_reinvoked_after_success` on a concrete trace. -/
theorem make_not_reinvoked_after_success_witness :
    isOkE (c2ok.make (flatten c2ok.key)) = true ∧
    ((runCalls (stepCall ([] : RegCache Unit) c2ok).1.2
      [c2ok]).2).count (flatten c2ok.key) = 0 :=
  ⟨by rfl, make_not_reinvoked_after_success [] c2ok [c2ok] (Or.inl (by rfl))⟩

/-- C7: when the key is absent and the make closure fails, `get_fallible`
returns that error and the cache is unchanged (no entry is inserted); the
key string is merely forced by `clone_str`. -/
theorem get_fallible_make_error {T E R : Type} (reg : RegCache T) (s : Str)
    (new : List Nat → Except E T) (getter : T → Except E R × T) (e : E)
    (h1 : lookupK reg (flatten s) = none)
    (h2 : new (flatten s) = .error e) :
    get_fallible reg s new getter = (.error e, reg, force s) := by
  simp [get_fallible, clone_str_eq, h1, h2]

/-- Witness for `get_fallible_make_error` at a concrete registry call. -/
theorem get_fallible_make_error_witness :
    lookupK ([] : RegCache Unit) (flatten (.Literal [3])) = none ∧
    (fun _ : List Nat => (Except.error 5 : Except Nat Unit))
      (flatten (.Literal [3])) = .error 5 ∧
    get_fallible ([] : RegCache Unit) (.Literal [3])
      (fun _ => .error 5) (fun t => (.ok 0, t)) =
      (.error 5, [], force (.Literal [3])) :=
  ⟨rfl, rfl, get_fallible_make_error [] (.Literal [3]) _ _ 5 rfl rfl⟩

/-- C10: when the key is absent, the make closure succeeds and the getter
fails, the freshly made (getter-mutated) value is still inserted before
the getter's error is returned; the key is then cached, so a subsequent
call with the same key does not invoke make again. -/
theorem get_fallible_getter_error_inserts {T E R : Type} (reg : RegCache T)
    (s : Str) (new : List Nat → Except E T) (getter : T → Except E R × T)
    (v v' : T) (e : E)
    (h1 : lookupK reg (flatten s) = none)
    (h2 : new (flatten s) = .ok v)
    (h3 : getter v = (.error e, v')) :
    get_fallible reg s new getter =
      (.error e, reg ++ [(flatten s, v')], force s) ∧
    lookupK (reg ++ [(flatten s, v')]) (flatten s) = some v' ∧
    (∀ c : CallRec T E R, flatten c.key = flatten s →
      (stepCall (reg ++ [(flatten s, v')]) c).2 = false) := by
  refine ⟨by simp [get_fallible, clone_str_eq, h1, h2, h3],
    lookupK_append_self reg _ _ h1, ?_⟩
  intro c hc
  simp [stepCall, hc, lookupK_append_self reg _ _ h1]

/-- Witness input for `get_fallible_getter_error_inserts`. -/
def c10call : CallRec Nat Nat Unit where
  key := .Literal [3]
  make := fun _ => .ok 7
  use := fun t => (.error 9, t + 1)

/-- Witness for `get_fallible_getter_error_inserts` at concrete input. -/
theorem get_fallible_getter_error_inserts_witness :
    lookupK ([] : RegCache Nat) (flatten (.Literal [3])) = none ∧
    c10call.make (flatten (.Literal [3])) = .ok 7 ∧
    c10call.use 7 = (.error 9, 8) ∧
    get_fallible ([] : RegCache Nat) (.Literal [3]) c10call.make c10call.use =
      (.error 9, [] ++ [(flatten (.Literal [3]), 8)], force (.Literal [3])) ∧
    lookupK ([] ++ [(flatten (.Literal [3]), 8)]) (flatten (.Literal [3])) =
      some 8 ∧
    (stepCall ([] ++ [(flatten (.Literal [3]), 8)]) c10call).2 = false :=
  ⟨rfl, rfl, rfl,
    (get_fallible_getter_error_inserts [] (.Literal [3])
      c10call.make c10call.use 7 8 9 rfl rfl rfl).1,
    (get_fallible_getter_error_inserts [] (.Literal [3])
      c10call.make c10call.use 7 8 9 rfl rfl rfl).2.1,
    (get_fallible_getter_error_inserts [] (.Literal [3])
      c10call.make c10call.use 7 8 9 rfl rfl rfl).2.2 c10call rfl⟩

/-! Helper lemmas about line reading. -/

theorem takeLine_eq_nil_iff (l : List Nat) : takeLine l = [] ↔ l = [] := by
  cases l with
  | nil => simp [takeLine]
  | cons b bs =>
    simp only [takeLine]
    split <;> simp

/-- The next line is an initial segment of the remaining input. -/
theorem takeLine_initial (l : List Nat) : ∃ rest, l = takeLine l ++ rest := by
  induction l with
  | nil => exact ⟨[], rfl⟩
  | cons b bs ih =>
    by_cases hb : b = 10
    · exact ⟨bs, by simp [takeLine, hb]⟩
    · obtain ⟨r, hr⟩ := ih
      refine ⟨r, ?_⟩
      simp only [takeLine, if_neg hb, List.cons_append]
      exact congrArg (List.cons b) hr

/-- When a newline remains in the input, the next line ends with it and
contains no earlier newline. -/
theorem takeLine_newline (l : List Nat) (h : 10 ∈ l) :
    ∃ p, takeLine l = p ++ [10] ∧ (10 : Nat) ∉ p := by
  induction l with
  | nil => simp at h
  | cons b bs ih =>
    by_cases hb : b = 10
    · exact ⟨[], by simp [takeLine, hb]⟩
    · have hm : 10 ∈ bs := by
        rcases List.mem_cons.mp h with h1 | h1
        · exact absurd h1.symm hb
        · exact h1
      obtain ⟨p, hp, hnp⟩ := ih hm
      refine ⟨b :: p, ?_, ?_⟩
      · simp [takeLine, hb, hp]
      · simp only [List.mem_cons, not_or]
        exact ⟨fun hh => hb hh.symm, hnp⟩

/-- C8: on an already-open file (the path is cached with reader state
`r`), `get_line` appends to the `into` buffer exactly the next line of
the file — the bytes from the current position up to and including the
first newline (an initial segment of the remaining contents that, when a
newline remains, ends with it and contains no earlier newline) — advances
the reader past those bytes, and returns `false` exactly when the reader
is at EOF (zero bytes were read). -/
theorem get_line_reads_next_line (fs : FileSys) (reg : RegCache BufReaderM)
    (pat : Str) (into : List Nat) (r : BufReaderM)
    (h : lookupK reg (flatten pat) = some r) :
    FileRead.get_line fs reg pat into =
      (.ok (decide ((takeLine (r.contents.drop r.pos)).length > 0),
          into ++ takeLine (r.contents.drop r.pos)),
        updateK reg (flatten pat)
          ⟨r.contents, r.pos + (takeLine (r.contents.drop r.pos)).length⟩,
        force pat) ∧
    ((takeLine (r.contents.drop r.pos)).length > 0 ↔
      r.pos < r.contents.length) ∧
    (∃ rest, r.contents.drop r.pos = takeLine (r.contents.drop r.pos) ++ rest) ∧
    (10 ∈ r.contents.drop r.pos →
      ∃ p, takeLine (r.contents.drop r.pos) = p ++ [10] ∧ (10 : Nat) ∉ p) := by
  refine ⟨?_, ?_, takeLine_initial _, takeLine_newline _⟩
  · simp [FileRead.get_line, get_fallible, clone_str_eq, h, read_line]
  · have hiff : takeLine (r.contents.drop r.pos) = [] ↔
        r.contents.length ≤ r.pos := by
      rw [takeLine_eq_nil_iff, List.drop_eq_nil_iff]
    rw [gt_iff_lt, List.length_pos, ne_eq, hiff]
    omega

/-- Witness for `get_line_reads_next_line`: file contents `[72,10,66]`
already open at position 0; the line `[72,10]` is appended to `[9]`. -/
theorem get_line_reads_next_line_witness :
    lookupK ([([5], ⟨[72, 10, 66], 0⟩)] : RegCache BufReaderM)
      (flatten (.Literal [5])) = some ⟨[72, 10, 66], 0⟩ ∧
    FileRead.get_line (fun _ => none)
      [([5], ⟨[72, 10, 66], 0⟩)] (.Literal [5]) [9] =
      (.ok (decide ((takeLine (([72, 10, 66] : List Nat).drop 0)).length > 0),
          [9] ++ takeLine (([72, 10, 66] : List Nat).drop 0)),
        updateK [([5], ⟨[72, 10, 66], 0⟩)] (flatten (.Literal [5]))
          ⟨[72, 10, 66], 0 + (takeLine (([72, 10, 66] : List Nat).drop 0)).length⟩,
        force (.Literal [5])) :=
  ⟨rfl,
    (get_line_reads_next_line (fun _ => none) [([5], ⟨[72, 10, 66], 0⟩)]
      (.Literal [5]) [9] ⟨[72, 10, 66], 0⟩ rfl).1⟩

end Frawk
